import Mathlib

/-!
Shallow embedding of the `escaped-delimiter` crate (src/lib.rs).

Bytes are modelled as `Nat` (the code only ever compares bytes for
equality, so nothing depends on the 0..255 range); a Rust `&[u8]` slice
becomes a `List Nat`.  The struct `Iter { delim, escape, inner }` is a
Lean structure.  Rust slicing `&l[..p]` / `&l[p..]` becomes
`List.take p` / `List.drop p`; the single slicing site whose index can
exceed the slice length (the `self.inner = &self.inner[..pos]` in
`next_back`, with `pos` produced by `rfind_eow`) is guarded by an
explicit bounds check, out-of-bounds being modelled as `none`
(a Rust index-out-of-range abort).  All other slicing sites use indices
that are trivially bounded by the slice length (`find_bow`, `find_eow`
and `rfind_bow` return at most the length of their input).
-/

set_option maxHeartbeats 1000000

namespace EscapedDelim

/-- `Iter<'a> { delim: u8, escape: u8, inner: &'a [u8] }`. -/
structure Iter where
  delim : Nat
  escape : Nat
  inner : List Nat
  deriving DecidableEq, Repr

/-- Replace the `inner` field (the only field the Rust code mutates). -/
def setInner (it : Iter) (l : List Nat) : Iter :=
  ⟨it.delim, it.escape, l⟩

/-- `fn iso_parity(i: usize, j: usize) -> bool { (i & 1) == (j & 1) }`
(`i & 1` is `i % 2`). -/
def iso_parity (i j : Nat) : Bool :=
  i % 2 == j % 2

/-- `slice.iter().copied().enumerate()` starting at index `k`:
the list of `(index, byte)` pairs. -/
def enumFrom : Nat → List Nat → List (Nat × Nat)
  | _, [] => []
  | k, c :: cs => (k, c) :: enumFrom (k + 1) cs

/-- `self.enumerate().rev()`: index/byte pairs from the back. -/
def renum (it : Iter) : List (Nat × Nat) :=
  (enumFrom 0 it.inner).reverse

/-- The loop of `find_bow`: `enumerate().skip_while(|(_, c)| c == delim)`
followed by `next()`, returning the index of the first byte that is not
the delimiter, or the length of the list when all bytes are delimiters.
Equivalently it counts the leading delimiter bytes. -/
def find_bow_go (d : Nat) : List Nat → Nat
  | [] => 0
  | c :: cs => if c = d then find_bow_go d cs + 1 else 0

/-- `fn find_bow(&self) -> usize`. -/
def find_bow (it : Iter) : Nat :=
  find_bow_go it.delim it.inner

/-- The loop of `find_eow`: walks the bytes carrying `prev_char`
(initially `0u8`) and the running index; returns the index of the first
delimiter byte whose predecessor state is not the escape byte, or the
total length when the scan exhausts the list.  The `prev_char` update is
`if c == escape && prev_char == escape { 0 } else { c }`. -/
def find_eow_go (d e : Nat) : Nat → Nat → List Nat → Nat
  | _, i, [] => i
  | prev, i, c :: cs =>
    if c = d ∧ prev ≠ e then i
    else find_eow_go d e (if c = e ∧ prev = e then 0 else c) (i + 1) cs

/-- `fn find_eow(&self) -> Option<NonZeroUsize>`; the `NonZeroUsize`
payload is modelled as a plain `Nat` (claim C9 concerns its positivity). -/
def find_eow (it : Iter) : Option Nat :=
  if it.inner = [] then none
  else some (find_eow_go it.delim it.escape 0 0 it.inner)

/-- The body of `rfind_eow` after `renumerate()`:
`skip_while(|(_, c)| c == delim)` is the `c = d` recursion; on the first
non-delimiter pair `(i, c)`, if `c` is the escape byte the code takes
`it.filter(|(_, c)| c == escape).last()` — the *frontmost* escape pair
among the remaining (descending) pairs — and compares parities. -/
def rfind_eow_core (d e : Nat) : List (Nat × Nat) → Option Nat
  | [] => none
  | (i, c) :: rest =>
    if c = d then rfind_eow_core d e rest
    else if c = e then
      match (rest.filter (fun p => p.2 == e)).getLast? with
      | some (j, _) => if ¬ iso_parity i j then some (i + 1) else some (i + 2)
      | none => some (i + 2)
    else some (i + 1)

/-- `fn rfind_eow(&self) -> Option<NonZeroUsize>`. -/
def rfind_eow (it : Iter) : Option Nat :=
  rfind_eow_core it.delim it.escape (renum it)

/-- The loop of `rfind_bow`, state `(delim, delim_found, broken)`.
Each iteration first runs
`if delim_found && c != escape { if iso_parity(i, delim) { delim_found = false } else { broken = true; break } }`
and then `if c == delim { delim_found = true; delim = i }`. -/
def rfind_bow_core (d e : Nat) : Nat → Bool → List (Nat × Nat) → Nat × Bool × Bool
  | dl, df, [] => (dl, df, false)
  | dl, df, (i, c) :: rest =>
    if df ∧ c ≠ e then
      if iso_parity i dl then
        if c = d then rfind_bow_core d e i true rest
        else rfind_bow_core d e dl false rest
      else (dl, df, true)
    else
      if c = d then rfind_bow_core d e i true rest
      else rfind_bow_core d e dl df rest

/-- `fn rfind_bow(&self) -> usize`: after the loop,
`if delim_found && (broken || iso_parity(delim, 0)) { delim + 1 } else { 0 }`. -/
def rfind_bow (it : Iter) : Nat :=
  let r := rfind_bow_core it.delim it.escape 0 false (renum it)
  if r.2.1 ∧ (r.2.2 ∨ iso_parity r.1 0) then r.1 + 1 else 0

/-- `Iterator::next`.  Both slicing indices (`find_bow`'s result and
`find_eow`'s payload) are at most the current length, so the two Rust
slicings always succeed; the call also mutates `inner` when it returns
`None` (the leading delimiters have already been dropped). -/
def next (it : Iter) : Option (List Nat) × Iter :=
  let it1 := setInner it (it.inner.drop (find_bow it))
  match find_eow it1 with
  | none => (none, it1)
  | some pos => (some (it1.inner.take pos), setInner it1 (it1.inner.drop pos))

/-- `DoubleEndedIterator::next_back`.  The outer `Option` models the
index-out-of-range abort of `self.inner = &self.inner[..pos]` when
`rfind_eow` returns a `pos` greater than the current length (which it
can: its `i + 2` branch does not check that a delimiter was actually
skipped); `rfind_bow`'s result is at most the length, so the remaining
slicings always succeed. -/
def next_back (it : Iter) : Option (Option (List Nat) × Iter) :=
  match rfind_eow it with
  | none => some (none, it)
  | some pos =>
    if pos ≤ it.inner.length then
      let it1 := setInner it (it.inner.take pos)
      let p := rfind_bow it1
      some (some (it1.inner.drop p), setInner it1 (it1.inner.take p))
    else none

/-- Pull from the front at most `fuel` times, collecting the returned
words until the first `None`. -/
def collectFront : Nat → Iter → List (List Nat)
  | 0, _ => []
  | n + 1, it =>
    match next it with
    | (none, _) => []
    | (some w, it2) => w :: collectFront n it2

/-- Pull from the back at most `fuel` times, collecting the returned
words until the first `None` (or until an index-out-of-range abort). -/
def collectBack : Nat → Iter → List (List Nat)
  | 0, _ => []
  | n + 1, it =>
    match next_back it with
    | some (some w, it2) => w :: collectBack n it2
    | _ => []

/-- All words produced by exhausting the iterator from the front
(`length + 1` pulls always suffice: each successful pull consumes at
least one byte). -/
def allWordsFront (it : Iter) : List (List Nat) :=
  collectFront (it.inner.length + 1) it

/-- All words produced by exhausting the iterator from the back. -/
def allWordsBack (it : Iter) : List (List Nat) :=
  collectBack (it.inner.length + 1) it

/-- Run a sequence of pulls (`true` = `next`, `false` = `next_back`),
recording each call's result: `some (some w)` a word, `some none` an
empty pull, `none` an index-out-of-range abort (which ends the run). -/
def resultsOfRun : List Bool → Iter → List (Option (Option (List Nat)))
  | [], _ => []
  | true :: rest, it =>
    let p := next it
    some p.1 :: resultsOfRun rest p.2
  | false :: rest, it =>
    match next_back it with
    | none => [none]
    | some (w, it2) => some w :: resultsOfRun rest it2

/-- Run a sequence of pulls, keeping the consumed chunks.
For a front pull the chunk is `(skipped leading separators, word)`
(word `[]` when the pull returned `None`); for a back pull that returns
a word the chunk is `(word, skipped trailing separators)`.  A back pull
returning `None` consumes nothing; an index-out-of-range abort ends the
run.  Front chunks are listed in emission order; back chunks likewise.
The `false` branch inlines `next_back`'s body so that the skipped part
(`inner.drop pos`) can be recorded. -/
def runPulls : List Bool → Iter → List (List Nat × List Nat) × Iter × List (List Nat × List Nat)
  | [], it => ([], it, [])
  | true :: rest, it =>
    let skipped := it.inner.take (find_bow it)
    match next it with
    | (none, it2) =>
      let q := runPulls rest it2
      ((skipped, []) :: q.1, q.2.1, q.2.2)
    | (some w, it2) =>
      let q := runPulls rest it2
      ((skipped, w) :: q.1, q.2.1, q.2.2)
  | false :: rest, it =>
    match rfind_eow it with
    | none => runPulls rest it
    | some pos =>
      if pos ≤ it.inner.length then
        let it1 := setInner it (it.inner.take pos)
        let p := rfind_bow it1
        let q := runPulls rest (setInner it1 (it1.inner.take p))
        (q.1, q.2.1, (it1.inner.drop p, it.inner.drop pos) :: q.2.2)
      else ([], it, [])

/-- Modelled from the spec (§8, no-escape equivalence): cut the buffer
at every delimiter byte, keeping the (possibly empty) fragments. -/
def splitAll (d : Nat) : List Nat → List (List Nat)
  | [] => [[]]
  | c :: cs =>
    if c = d then [] :: splitAll d cs
    else
      match splitAll d cs with
      | [] => [[c]]
      | w :: ws => (c :: w) :: ws

/-- Discard the empty fragments. -/
def dropEmpties : List (List Nat) → List (List Nat)
  | [] => []
  | w :: ws => if w = [] then dropEmpties ws else w :: dropEmpties ws

/-- Modelled from the spec (§8): the naive reference splitting — cut at
every delimiter byte and discard the empty fragments. -/
def naiveSplit (d : Nat) (l : List Nat) : List (List Nat) :=
  dropEmpties (splitAll d l)

/-- Modelled from claim C3's words: the length of the maximal contiguous
run of escape bytes ending at index `i` (inclusive). -/
def specEscRunLen (e : Nat) (l : List Nat) (i : Nat) : Nat :=
  ((l.take (i + 1)).reverse.takeWhile (fun c => c == e)).length

/-- Index of the frontmost escape byte of a list, if any (this — not
the extent of a contiguous run — is what `rfind_eow`'s
`filter(..).last()` computes on the reversed enumeration). -/
def firstEscape (e : Nat) : List Nat → Option Nat
  | [] => none
  | c :: cs => if c = e then some 0 else (firstEscape e cs).map (· + 1)

/-- Length of the maximal delimiter-free prefix of a list (the word
that forward scanning yields when no escape byte is present). -/
def wordLen (d : Nat) : List Nat → Nat
  | [] => 0
  | c :: cs => if c = d then 0 else wordLen d cs + 1

/-!
## Validation of the embedding against the crate's own tests

Byte values: `X` = 88, `Y` = 89, `a` = 97 …, space = 32, backslash = 92.
These reproduce `test_words`, `test_words_rev`, `test_words_mixed` and
the doc examples of src/lib.rs.
-/

example : allWordsFront ⟨88, 89, []⟩ = [] := by decide

example : allWordsFront ⟨88, 89, [97, 98, 99]⟩ = [[97, 98, 99]] := by decide

example : allWordsFront ⟨88, 89, [97, 98, 99, 88]⟩ = [[97, 98, 99]] := by decide

example : allWordsFront ⟨88, 89, [97, 98, 99, 88, 100, 101, 102, 88, 88, 104, 88, 32, 106, 107, 108, 109]⟩ =
    [[97, 98, 99], [100, 101, 102], [104], [32, 106, 107, 108, 109]] := by decide

example : allWordsFront ⟨88, 89, [97, 98, 88, 89, 88, 99, 100, 101, 88, 89, 102, 89, 88, 88, 89, 89, 89, 88, 103, 89, 89, 88]⟩ =
    [[97, 98], [89, 88, 99, 100, 101], [89, 102, 89, 88], [89, 89, 89, 88, 103, 89, 89]] := by decide

example : allWordsBack ⟨88, 89, [97, 98, 99, 88, 100, 101, 102, 88, 88, 104, 88, 32, 106, 107, 108, 109]⟩ =
    [[32, 106, 107, 108, 109], [104], [100, 101, 102], [97, 98, 99]] := by decide

example : allWordsBack ⟨88, 89, [88, 88, 97, 98, 88, 89, 88, 99, 100, 101, 88, 89, 102, 89, 88, 88, 89, 89, 89, 88, 103, 89, 89, 88]⟩ =
    [[89, 89, 89, 88, 103, 89, 89], [89, 102, 89, 88], [89, 88, 99, 100, 101], [97, 98]] := by decide

example : allWordsBack ⟨88, 89, [88, 97]⟩ = [[97]] := by decide

example : allWordsBack ⟨88, 89, [89, 88, 97]⟩ = [[89, 88, 97]] := by decide

example : allWordsBack ⟨88, 89, [89, 89, 88, 97]⟩ = [[97], [89, 89]] := by decide

example : (next ⟨88, 89, [97, 98, 99, 88, 100, 101, 102, 88, 88, 104, 88, 32, 106, 107, 108, 109]⟩).1 =
    some [97, 98, 99] := by decide

example : next_back ⟨88, 89, [100, 101, 102, 88, 88, 104, 88, 32, 106, 107, 108, 109]⟩ =
    some (some [32, 106, 107, 108, 109], ⟨88, 89, [100, 101, 102, 88, 88, 104, 88]⟩) := by decide

/-!
## Claim theorems
-/

/-- C1 (code bug): at buffer `YYaYX` (delimiter `X`, escape `Y`) the
forward iteration yields the single word `YYaYX` — the trailing
delimiter is escaped by the odd run `Y` at index 3 — but the backward
iteration yields the single word `YYaY`: `rfind_eow` classifies the
escape run ending at index 3 by the parity of the *frontmost* escape
byte of the buffer (index 0) instead of the contiguous run, decides the
trailing delimiter is unescaped, and drops it.  Hence collecting all
words via `next` is not the reverse of collecting all words via
`next_back`. -/
theorem C1_code_bug :
    allWordsFront ⟨88, 89, [89, 89, 97, 89, 88]⟩ = [[89, 89, 97, 89, 88]] ∧
    allWordsBack ⟨88, 89, [89, 89, 97, 89, 88]⟩ = [[89, 89, 97, 89]] ∧
    allWordsFront ⟨88, 89, [89, 89, 97, 89, 88]⟩ ≠
      (allWordsBack ⟨88, 89, [89, 89, 97, 89, 88]⟩).reverse := by
  decide

/-- C2 (code bug): on the fresh scanner over `YbcYYX` (delimiter `X`,
escape `Y`) the very first `next_back` call *succeeds* — it returns
`Some` with an empty word — yet leaves `remaining` completely
unchanged: `rfind_eow` mis-classifies the trailing escape run (via the
frontmost escape byte, index 0) as making the final delimiter escaped
and returns the full length 6, after which `rfind_bow` correctly
recognises the delimiter at index 5 as unescaped and returns 6 as the
begin-of-word, producing the empty word.  The remaining view's length
does not decrease (6 before, 6 after), and repeated `next_back` calls
loop forever. -/
theorem C2_code_bug :
    next_back ⟨88, 89, [89, 98, 99, 89, 89, 88]⟩ =
      some (some [], ⟨88, 89, [89, 98, 99, 89, 89, 88]⟩) := by
  decide

/-- C3 (counterexample): view `aYX` (delimiter `X` = 88, escape `Y` =
89).  Skipping trailing delimiters from the back skips the `X` at index
2; the first non-delimiter byte from the back is at index `i = 1` and
is the escape byte; the maximal contiguous escape run ending at index 1
has length 1 — odd.  The claim states the boundary must then be
`i + 1 = 2`, but the code returns `i + 2 = 3` (the odd run escapes the
following delimiter, which is therefore included in the word). -/
theorem C3_counterexample :
    specEscRunLen 89 [97, 89, 88] 1 = 1 ∧
    rfind_eow ⟨88, 89, [97, 89, 88]⟩ = some 3 ∧
    rfind_eow ⟨88, 89, [97, 89, 88]⟩ ≠ some (1 + 1) := by
  decide

/-- C4 (code bug): at buffer `YYaYX` (delimiter `X`, escape `Y`),
exhausting the scanner purely from the front cuts the buffer into the
single word `YYaYX` (one boundary pair — the whole buffer), while
exhausting purely from the back cuts it into the single word `YYaY`
(boundary 0..4, with index 4 treated as a separator).  The two pull
orders therefore do not produce the same words or boundaries: the
boundary positions are not a function of the buffer and configuration
alone. -/
theorem C4_code_bug :
    allWordsFront ⟨88, 89, [89, 89, 97, 89, 88]⟩ = [[89, 89, 97, 89, 88]] ∧
    allWordsBack ⟨88, 89, [89, 89, 97, 89, 88]⟩ = [[89, 89, 97, 89]] ∧
    ¬ (allWordsFront ⟨88, 89, [89, 89, 97, 89, 88]⟩).Perm
        (allWordsBack ⟨88, 89, [89, 89, 97, 89, 88]⟩) := by
  decide

/-- C5 (confirmed): the doc example — buffer `a\ b\\ c\\\ d\\\\ e`
(bytes below; backslash = 92, space = 32), delimiter space, escape
backslash — forward iteration yields exactly the three words
`a\ b\\`, `c\\\ d\\\\`, `e`, with every escaped delimiter and every
escape byte preserved verbatim inside the words. -/
theorem C5_thm :
    allWordsFront ⟨32, 92,
        [97, 92, 32, 98, 92, 92, 32, 99, 92, 92, 92, 32, 100, 92, 92, 92, 92, 32, 101]⟩ =
      [[97, 92, 32, 98, 92, 92], [99, 92, 92, 92, 32, 100, 92, 92, 92, 92], [101]] := by
  decide

/-- C7 (counterexample): buffer `a b` (bytes `[97, 32, 98]`, delimiter
space, escape backslash), pulled twice from the back.  The words are
emitted in the order `b` then `a`, and the only separator byte skipped
is the space (skipped by the second pull).  Concatenating the emitted
words together with their skipped separator bytes *in emission order*
gives `[98, 97, 32]` (`ba `), which does not reconstruct the buffer
`[97, 32, 98]` (`a b`); reconstruction requires taking the back-pulled
chunks in *reverse* emission order. -/
theorem C7_counterexample :
    (runPulls [false, false] ⟨32, 92, [97, 32, 98]⟩).2.2 = [([98], []), ([97], [32])] ∧
    (((runPulls [false, false] ⟨32, 92, [97, 32, 98]⟩).2.2).map (fun p => p.1 ++ p.2)).flatten ≠
      [97, 32, 98] := by
  decide

/-!
## Supporting lemmas
-/

/-- Every pair produced by `enumFrom` carries a byte of the list. -/
theorem snd_mem_of_mem_enumFrom {k : Nat} {l : List Nat} {p : Nat × Nat}
    (h : p ∈ enumFrom k l) : p.2 ∈ l := by
  induction l generalizing k with
  | nil => simp [enumFrom] at h
  | cons c cs ih =>
    simp only [enumFrom, List.mem_cons] at h
    rcases h with h | h
    · subst h; simp
    · exact List.mem_cons_of_mem _ (ih h)

/-- Every byte of the list appears in some pair of `enumFrom`. -/
theorem exists_mem_enumFrom {l : List Nat} {x : Nat} (h : x ∈ l) (k : Nat) :
    ∃ i, (i, x) ∈ enumFrom k l := by
  induction l generalizing k with
  | nil => simp at h
  | cons c cs ih =>
    rcases List.mem_cons.mp h with h | h
    · exact ⟨k, by simp [enumFrom, h]⟩
    · rcases ih h (k + 1) with ⟨i, hi⟩
      exact ⟨i, List.mem_cons_of_mem _ hi⟩

/-- `rfind_eow_core` returns `none` exactly when every byte it sees is
the delimiter. -/
theorem rfind_eow_core_eq_none_iff (d e : Nat) (xs : List (Nat × Nat)) :
    rfind_eow_core d e xs = none ↔ ∀ p ∈ xs, p.2 = d := by
  induction xs with
  | nil => simp [rfind_eow_core]
  | cons q rest ih =>
    obtain ⟨i, c⟩ := q
    by_cases hc : c = d
    · simp [rfind_eow_core, hc, ih]
    · constructor
      · intro h
        exfalso
        by_cases he : c = e
        · simp only [rfind_eow_core, if_neg hc, if_pos he] at h
          rcases hm : (rest.filter (fun p => p.2 == e)).getLast? with _ | ⟨j, b⟩ <;>
            simp [hm] at h
          split at h <;> simp at h
        · simp [rfind_eow_core, hc, he] at h
      · intro h
        exact absurd (h (i, c) (List.mem_cons_self _ _)) hc

/-- `rfind_eow` returns `none` exactly when every remaining byte is the
delimiter. -/
theorem rfind_eow_eq_none_iff (it : Iter) :
    rfind_eow it = none ↔ ∀ x ∈ it.inner, x = it.delim := by
  rw [rfind_eow, rfind_eow_core_eq_none_iff]
  constructor
  · intro h x hx
    rcases exists_mem_enumFrom hx 0 with ⟨i, hi⟩
    exact h (i, x) (by simpa [renum] using hi)
  · intro h p hp
    exact h p.2 (snd_mem_of_mem_enumFrom (by simpa [renum] using hp))

/-- On an all-delimiter list, `find_bow_go` returns the full length. -/
theorem find_bow_go_of_all_delim {d : Nat} {l : List Nat}
    (h : ∀ x ∈ l, x = d) : find_bow_go d l = l.length := by
  induction l with
  | nil => rfl
  | cons c cs ih =>
    have hc : c = d := h c (List.mem_cons_self _ _)
    simp [find_bow_go, hc, ih (fun x hx => h x (List.mem_cons_of_mem _ hx))]

/-- `find_eow` returns `none` exactly on the empty view. -/
theorem find_eow_eq_none_iff (it : Iter) :
    find_eow it = none ↔ it.inner = [] := by
  rw [find_eow]
  split <;> simp_all

/-- When the remaining view consists solely of delimiter bytes, `next`
returns `None` and leaves the (already sliced) view empty. -/
theorem next_of_all_delim {it : Iter} (h : ∀ x ∈ it.inner, x = it.delim) :
    next it = (none, setInner it []) := by
  have hbow : find_bow it = it.inner.length := find_bow_go_of_all_delim h
  have hdrop : it.inner.drop (find_bow it) = [] := by
    rw [hbow]; exact List.drop_length _
  rw [next, hdrop]
  have : find_eow (setInner it []) = none := (find_eow_eq_none_iff _).mpr rfl
  rw [this]

/-- When the remaining view consists solely of delimiter bytes,
`next_back` returns `None` and leaves the state untouched. -/
theorem next_back_of_all_delim {it : Iter} (h : ∀ x ∈ it.inner, x = it.delim) :
    next_back it = some (none, it) := by
  have : rfind_eow it = none := (rfind_eow_eq_none_iff it).mpr h
  rw [next_back, this]

/-- From an all-delimiter view, every pull in any sequence of pulls
completes and returns `None`. -/
theorem resultsOfRun_of_all_delim :
    ∀ (dirs : List Bool) (it : Iter), (∀ x ∈ it.inner, x = it.delim) →
      resultsOfRun dirs it = List.replicate dirs.length (some none)
  | [], _, _ => rfl
  | true :: rest, it, h => by
    rw [resultsOfRun, next_of_all_delim h]
    have hrec := resultsOfRun_of_all_delim rest (setInner it []) (by simp [setInner])
    simp [hrec, List.replicate]
  | false :: rest, it, h => by
    rw [resultsOfRun, next_back_of_all_delim h]
    have hrec := resultsOfRun_of_all_delim rest it h
    simp [hrec, List.replicate]

/-- If `next` returns `None`, the resulting remaining view is empty. -/
theorem inner_of_next_none {it : Iter} (h : (next it).1 = none) :
    (next it).2.inner = [] := by
  rw [next] at h ⊢
  rcases heq : find_eow (setInner it (it.inner.drop (find_bow it))) with _ | pos
  · simpa [setInner] using (find_eow_eq_none_iff _).mp heq
  · rw [heq] at h; simp at h

/-- If `next_back` completes and returns `None`, the state is untouched
and the remaining view was all delimiters. -/
theorem next_back_eq_some_none {it it2 : Iter}
    (h : next_back it = some (none, it2)) :
    it2 = it ∧ ∀ x ∈ it.inner, x = it.delim := by
  rw [next_back] at h
  rcases heq : rfind_eow it with _ | pos
  · rw [heq] at h
    simp only [Option.some.injEq, Prod.mk.injEq] at h
    exact ⟨h.2.symm, (rfind_eow_eq_none_iff it).mp heq⟩
  · rw [heq] at h
    by_cases hle : pos ≤ it.inner.length <;> simp [hle] at h

/-- C8 (confirmed): exhaustion is terminal and shared between the two
ends — after a `next` that returns `None`, and likewise after a
`next_back` that returns `None`, every pull of every subsequent
sequence of pulls (from either end) completes and returns `None`. -/
theorem C8_thm (it : Iter) (dirs : List Bool) :
    ((next it).1 = none →
      resultsOfRun dirs (next it).2 = List.replicate dirs.length (some none)) ∧
    (∀ it2, next_back it = some (none, it2) →
      resultsOfRun dirs it2 = List.replicate dirs.length (some none)) := by
  constructor
  · intro h
    refine resultsOfRun_of_all_delim dirs _ ?_
    rw [inner_of_next_none h]
    intro x hx
    simp at hx
  · intro it2 h
    obtain ⟨rfl, hall⟩ := next_back_eq_some_none h
    exact resultsOfRun_of_all_delim dirs it2 hall

/-- Witness for C8 at concrete exhausted scanners: delimiter `X` = 88,
buffers `XX` (front pull returning `None` first) and `X` (back pull
returning `None` first). -/
theorem C8_witness :
    resultsOfRun [true, false] (next ⟨88, 89, [88, 88]⟩).2 =
      List.replicate 2 (some none) ∧
    resultsOfRun [true] (⟨88, 89, [88]⟩ : Iter) = List.replicate 1 (some none) :=
  ⟨(C8_thm ⟨88, 89, [88, 88]⟩ [true, false]).1 (by decide),
   (C8_thm ⟨88, 89, [88]⟩ [true]).2 ⟨88, 89, [88]⟩ (by decide)⟩

/-- `find_eow_go` never returns less than its running index. -/
theorem le_find_eow_go (d e : Nat) :
    ∀ (l : List Nat) (prev i : Nat), i ≤ find_eow_go d e prev i l
  | [], _, _ => Nat.le_refl _
  | c :: cs, prev, i => by
    rw [find_eow_go]
    split
    · exact Nat.le_refl _
    · exact Nat.le_trans (Nat.le_succ i) (le_find_eow_go d e cs _ (i + 1))

/-- After dropping the leading delimiters counted by `find_bow_go`, the
head (if any) is not the delimiter. -/
theorem head_drop_find_bow_go (d : Nat) :
    ∀ l : List Nat, (l.drop (find_bow_go d l)).head? ≠ some d
  | [] => by simp
  | c :: cs => by
    by_cases hc : c = d
    · simpa [find_bow_go, hc] using head_drop_find_bow_go d cs
    · simp [find_bow_go, hc]

/-- C9 (confirmed): on any view whose first byte is not the delimiter —
the precondition `next` establishes by slicing at `find_bow`'s result —
`find_eow` returns `None` exactly on the empty view and otherwise an
index that is at least 1, so neither `NonZeroUsize::new_unchecked` site
in `find_eow` ever receives zero; consequently `next` never returns an
empty word. -/
theorem C9_thm :
    (∀ it : Iter, it.inner.head? ≠ some it.delim →
      ((find_eow it = none ↔ it.inner = []) ∧ ∀ p, find_eow it = some p → 1 ≤ p)) ∧
    (∀ (it : Iter) (w : List Nat) (it2 : Iter), next it = (some w, it2) → w ≠ []) := by
  have key : ∀ it : Iter, it.inner.head? ≠ some it.delim →
      ∀ p, find_eow it = some p → 1 ≤ p := by
    intro it hhead p hp
    rcases hl : it.inner with _ | ⟨c, cs⟩
    · rw [find_eow, hl] at hp; simp at hp
    · rw [hl] at hhead
      have hc : ¬(c = it.delim ∧ (0 : Nat) ≠ it.escape) := by
        intro hand
        exact hhead (by simp [hand.1])
      rw [find_eow, hl] at hp
      simp only [if_neg (by simp : ¬(c :: cs = [])), Option.some.injEq] at hp
      rw [find_eow_go, if_neg hc] at hp
      exact hp ▸ le_find_eow_go _ _ cs _ 1
  refine ⟨fun it hhead => ⟨find_eow_eq_none_iff it, key it hhead⟩, ?_⟩
  intro it w it2 h
  rw [next] at h
  rcases heq : find_eow (setInner it (it.inner.drop (find_bow it))) with _ | pos
  · rw [heq] at h; simp at h
  · rw [heq] at h
    simp only [Prod.mk.injEq, Option.some.injEq] at h
    have hhd : (setInner it (it.inner.drop (find_bow it))).inner.head? ≠
        some (setInner it (it.inner.drop (find_bow it))).delim := by
      simp only [setInner, find_bow]
      exact head_drop_find_bow_go it.delim it.inner
    have hpos : 1 ≤ pos := key _ hhd pos heq
    have hne : (setInner it (it.inner.drop (find_bow it))).inner ≠ [] := by
      intro hnil
      rw [(find_eow_eq_none_iff _).mpr hnil] at heq
      exact Option.noConfusion heq
    rcases hl : (setInner it (it.inner.drop (find_bow it))).inner with _ | ⟨c, cs⟩
    · exact absurd hl hne
    · rw [← h.1, hl]
      rcases pos with _ | n
      · exact absurd hpos (by simp)
      · simp [List.take]

/-- Witness for C9 at the singleton view `a` (delimiter `X` = 88):
`find_eow` yields index 1 and `next` yields the nonempty word `a`. -/
theorem C9_witness :
    ((find_eow ⟨88, 89, [97]⟩ = none ↔ (⟨88, 89, [97]⟩ : Iter).inner = []) ∧
      (find_eow ⟨88, 89, [97]⟩ = some 1 → 1 ≤ 1)) ∧
    ([97] : List Nat) ≠ [] :=
  ⟨⟨(C9_thm.1 ⟨88, 89, [97]⟩ (by decide)).1, (C9_thm.1 ⟨88, 89, [97]⟩ (by decide)).2 1⟩,
   C9_thm.2 ⟨88, 89, [97]⟩ [97] ⟨88, 89, []⟩ (by decide)⟩

/-- C10 (confirmed): `next` and (when it completes) `next_back` leave
the `delim` and `escape` fields unchanged, and replace `inner` only by
a contiguous sub-range of its previous value — a suffix of the old view
(written as drop-then-take) for `next`, a prefix of the old view for
`next_back`.  The structure has no other fields. -/
theorem C10_thm :
    (∀ it : Iter, (next it).2.delim = it.delim ∧ (next it).2.escape = it.escape ∧
      ∃ m p, (next it).2.inner = (it.inner.drop m).take p) ∧
    (∀ (it : Iter) (w : Option (List Nat)) (it2 : Iter), next_back it = some (w, it2) →
      it2.delim = it.delim ∧ it2.escape = it.escape ∧ ∃ p, it2.inner = it.inner.take p) := by
  constructor
  · intro it
    rw [next]
    rcases heq : find_eow (setInner it (it.inner.drop (find_bow it))) with _ | pos
    · exact ⟨rfl, rfl, find_bow it, (it.inner.drop (find_bow it)).length,
        (List.take_length _).symm⟩
    · refine ⟨rfl, rfl, find_bow it + pos,
        (it.inner.drop (find_bow it + pos)).length, ?_⟩
      rw [List.take_length]
      simp [setInner, List.drop_drop, Nat.add_comm]
  · intro it w it2 h
    rw [next_back] at h
    rcases heq : rfind_eow it with _ | pos
    · rw [heq] at h
      simp only [Option.some.injEq, Prod.mk.injEq] at h
      obtain ⟨hw, hit⟩ := h
      subst hit
      exact ⟨rfl, rfl, it.inner.length, (List.take_length _).symm⟩
    · rw [heq] at h
      by_cases hle : pos ≤ it.inner.length
      · simp only [hle, if_true, Option.some.injEq, Prod.mk.injEq] at h
        obtain ⟨hw, hit⟩ := h
        subst hit
        refine ⟨rfl, rfl, min (rfind_bow (setInner it (it.inner.take pos))) pos, ?_⟩
        simp [setInner, List.take_take]
      · simp [hle] at h

/-- Witness for C10: a completing `next_back` on the singleton view `a`
keeps the configuration bytes and leaves a prefix as the new view. -/
theorem C10_witness :
    (⟨88, 89, []⟩ : Iter).delim = (⟨88, 89, [97]⟩ : Iter).delim ∧
    (⟨88, 89, []⟩ : Iter).escape = (⟨88, 89, [97]⟩ : Iter).escape ∧
    ∃ p, (⟨88, 89, []⟩ : Iter).inner = (⟨88, 89, [97]⟩ : Iter).inner.take p :=
  C10_thm.2 ⟨88, 89, [97]⟩ (some [97]) ⟨88, 89, []⟩ (by decide)

/-- A completing `next` that returns `None` consumed exactly the
leading separators. -/
theorem next_split_none {it it2 : Iter} (h : next it = (none, it2)) :
    it.inner.take (find_bow it) ++ it2.inner = it.inner := by
  rw [next] at h
  rcases heq : find_eow (setInner it (it.inner.drop (find_bow it))) with _ | pos
  · rw [heq] at h
    simp only [Prod.mk.injEq] at h
    rw [← h.2]
    exact List.take_append_drop (find_bow it) it.inner
  · rw [heq] at h; simp at h

/-- A successful `next` splits the old view into the skipped leading
separators, the word, and the new view. -/
theorem next_split_some {it : Iter} {w : List Nat} {it2 : Iter}
    (h : next it = (some w, it2)) :
    it.inner.take (find_bow it) ++ (w ++ it2.inner) = it.inner := by
  rw [next] at h
  rcases heq : find_eow (setInner it (it.inner.drop (find_bow it))) with _ | pos
  · rw [heq] at h; simp at h
  · rw [heq] at h
    simp only [Prod.mk.injEq, Option.some.injEq] at h
    rw [← h.1, ← h.2]
    simp only [setInner]
    rw [List.take_append_drop pos (it.inner.drop (find_bow it))]
    exact List.take_append_drop (find_bow it) it.inner

/-- Splice a reconstruction equation onto a trailing chunk. -/
theorem append_chain {α : Type} {A B C E D : List α} (h : A ++ (B ++ C) = E) :
    A ++ (B ++ (C ++ D)) = E ++ D := by
  rw [← h]
  simp [List.append_assoc]

/-- Double take/drop tiling used by the `next_back` step. -/
theorem take_drop_split (l : List Nat) (pos p : Nat) :
    (l.take pos).take p ++ ((l.take pos).drop p ++ l.drop pos) = l := by
  rw [← List.append_assoc, List.take_append_drop]
  exact List.take_append_drop pos l

/-- Any sequence of pulls tiles the buffer: the front-consumed chunks
(in emission order), then the unconsumed view, then the back-consumed
chunks (in reverse emission order) concatenate to the original view. -/
theorem runPulls_reconstruct :
    ∀ (dirs : List Bool) (it : Iter),
      ((runPulls dirs it).1.map (fun p => p.1 ++ p.2)).flatten ++
        ((runPulls dirs it).2.1.inner ++
          (((runPulls dirs it).2.2.reverse).map (fun p => p.1 ++ p.2)).flatten) = it.inner
  | [], it => by simp [runPulls]
  | true :: rest, it => by
    rcases hnext : next it with ⟨w?, it2⟩
    have ih := runPulls_reconstruct rest it2
    rcases w? with _ | w
    · simp only [runPulls, hnext, List.map_cons, List.flatten_cons, List.append_nil,
        List.append_assoc]
      simp only [List.append_assoc] at ih
      rw [ih]
      exact next_split_none hnext
    · simp only [runPulls, hnext, List.map_cons, List.flatten_cons, List.append_assoc]
      simp only [List.append_assoc] at ih
      rw [ih]
      exact next_split_some hnext
  | false :: rest, it => by
    rcases heq : rfind_eow it with _ | pos
    · simp only [runPulls, heq]
      exact runPulls_reconstruct rest it
    · by_cases hle : pos ≤ it.inner.length
      · have ih := runPulls_reconstruct rest
          (setInner (setInner it (it.inner.take pos))
            ((setInner it (it.inner.take pos)).inner.take
              (rfind_bow (setInner it (it.inner.take pos)))))
        simp only [runPulls, heq, hle, if_true, List.reverse_cons, List.map_append,
          List.flatten_append, List.map_cons, List.flatten_cons, List.map_nil,
          List.flatten_nil, List.append_nil, List.append_assoc]
        simp only [List.append_assoc] at ih
        rw [append_chain ih]
        simpa [setInner] using
          take_drop_split it.inner pos (rfind_bow (setInner it (it.inner.take pos)))
      · simp only [runPulls, heq, hle, if_false]
        simp

/-- C7 (amended, proved): for every buffer, configuration and pull
sequence, each returned word is a contiguous sub-range of the buffer
and no two words overlap, in the following exact sense: the buffer is
reconstructed by concatenating the front-pulled chunks
(skipped separators ++ word) in emission order, then the unconsumed
remaining view, then the back-pulled chunks (word ++ skipped
separators) in *reverse* emission order.  (Concatenating in plain
emission order, as the claim literally states, fails — see the
counterexample.) -/
theorem C7_amended (dirs : List Bool) (d e : Nat) (l : List Nat) :
    ((runPulls dirs ⟨d, e, l⟩).1.map (fun p => p.1 ++ p.2)).flatten ++
      ((runPulls dirs ⟨d, e, l⟩).2.1.inner ++
        (((runPulls dirs ⟨d, e, l⟩).2.2.reverse).map (fun p => p.1 ++ p.2)).flatten) = l :=
  runPulls_reconstruct dirs ⟨d, e, l⟩

/-- `enumFrom` distributes over append. -/
theorem enumFrom_append (k : Nat) (l1 l2 : List Nat) :
    enumFrom k (l1 ++ l2) = enumFrom k l1 ++ enumFrom (k + l1.length) l2 := by
  induction l1 generalizing k with
  | nil => simp [enumFrom]
  | cons c cs ih =>
    show enumFrom k (c :: (cs ++ l2)) = _
    rw [enumFrom, ih (k + 1), List.length_cons,
      show k + (cs.length + 1) = k + 1 + cs.length by omega]
    rfl

/-- `rfind_eow_core` skips over an all-delimiter segment. -/
theorem rfind_eow_core_skip {d e : Nat} :
    ∀ {xs : List (Nat × Nat)}, (∀ p ∈ xs, p.2 = d) → ∀ rest,
      rfind_eow_core d e (xs ++ rest) = rfind_eow_core d e rest
  | [], _, _ => rfl
  | (i, c) :: xs, h, rest => by
    have hc : c = d := h (i, c) (List.mem_cons_self _ _)
    rw [List.cons_append, rfind_eow_core, if_pos hc]
    exact rfind_eow_core_skip (fun p hp => h p (List.mem_cons_of_mem _ hp)) rest

/-- On the reversed enumeration, `filter(escape).last()` finds the
*frontmost* escape byte of the underlying list. -/
theorem filter_getLast_enumFrom (e : Nat) :
    ∀ (pre : List Nat) (k : Nat),
      ((enumFrom k pre).reverse.filter (fun p => p.2 == e)).getLast? =
        (firstEscape e pre).map (fun j => (k + j, e))
  | [], _ => by simp [enumFrom, firstEscape]
  | c :: cs, k => by
    rw [enumFrom, List.reverse_cons, List.filter_append]
    by_cases hc : c = e
    · subst hc
      simp only [List.filter_cons, List.filter_nil, beq_self_eq_true, if_true]
      rw [List.getLast?_concat]
      simp [firstEscape]
    · have hfc : (((k, c) : Nat × Nat).2 == e) = false := by
        simp [hc]
      rw [List.filter_cons, hfc]
      simp only [Bool.false_eq_true, if_false, List.filter_nil, List.append_nil]
      rw [filter_getLast_enumFrom e cs (k + 1), firstEscape, if_neg hc]
      rcases hfe : firstEscape e cs with _ | j
      · rfl
      · simp only [Option.map_some']
        rw [show k + 1 + j = k + (j + 1) by omega]

/-- C3 (amended, proved): characterization of `rfind_eow` when the
first non-delimiter byte from the back is the escape byte.  For a view
`pre ++ escape :: post` with `post` all delimiters (and the escape byte
distinct from the delimiter), writing `i = pre.length` for the index of
that escape byte: the returned boundary is `i + 2` when `pre` contains
no escape byte, or when the *frontmost* escape byte of `pre` sits at an
index of the same parity as `i` (for a contiguous run this means the
run including `i` has odd length); and `i + 1` otherwise (even run).
This is the opposite odd/even pairing from the claim, and the
classification uses the frontmost escape byte of the whole view rather
than the maximal contiguous run. -/
theorem C3_amended (d e : Nat) (pre post : List Nat)
    (hne : e ≠ d) (hpost : ∀ x ∈ post, x = d) :
    rfind_eow ⟨d, e, pre ++ e :: post⟩ =
      some (match firstEscape e pre with
        | some j => if iso_parity pre.length j then pre.length + 2 else pre.length + 1
        | none => pre.length + 2) := by
  rw [rfind_eow, renum]
  show rfind_eow_core d e ((enumFrom 0 (pre ++ e :: post)).reverse) = _
  rw [enumFrom_append, enumFrom, List.reverse_append, List.reverse_cons,
    List.append_assoc, List.singleton_append]
  have hpostall : ∀ p ∈ (enumFrom (0 + pre.length + 1) post).reverse, p.2 = d := by
    intro p hp
    exact hpost p.2 (snd_mem_of_mem_enumFrom (List.mem_reverse.mp hp))
  rw [rfind_eow_core_skip hpostall]
  rw [rfind_eow_core, if_neg hne, if_pos rfl]
  rw [filter_getLast_enumFrom e pre 0]
  rcases firstEscape e pre with _ | j
  · simp
  · simp only [Option.map_some, Nat.zero_add]
    by_cases hp : iso_parity (0 + pre.length) j
    · simp only [hp, Nat.zero_add] at *
      simp [hp]
    · simp only [Nat.zero_add] at hp
      simp [hp]

/-- Witness for C3 at the view `aYX` = `[97] ++ 89 :: [88]`
(delimiter 88, escape 89): `pre = [97]` holds no escape byte, so the
boundary is `pre.length + 2 = 3`. -/
theorem C3_witness :
    rfind_eow ⟨88, 89, [97] ++ 89 :: [88]⟩ =
      some (match firstEscape 89 [97] with
        | some j => if iso_parity ([97] : List Nat).length j
            then ([97] : List Nat).length + 2 else ([97] : List Nat).length + 1
        | none => ([97] : List Nat).length + 2) :=
  C3_amended 88 89 [97] [88] (by decide) (by decide)

/-- No byte of the delimiter-free prefix measured by `wordLen` is the
delimiter. -/
theorem ne_delim_of_mem_take_wordLen {d : Nat} :
    ∀ l : List Nat, ∀ x ∈ l.take (wordLen d l), x ≠ d
  | [], x, hx => by simp at hx
  | c :: cs, x, hx => by
    by_cases hc : c = d
    · simp [wordLen, hc] at hx
    · rw [wordLen, if_neg hc, List.take_succ_cons] at hx
      rcases List.mem_cons.mp hx with h | h
      · exact h ▸ hc
      · exact ne_delim_of_mem_take_wordLen cs x h

/-- The remainder after the delimiter-free prefix is empty or starts
with the delimiter. -/
theorem drop_wordLen (d : Nat) :
    ∀ l : List Nat, l.drop (wordLen d l) = [] ∨ ∃ r, l.drop (wordLen d l) = d :: r
  | [] => Or.inl rfl
  | c :: cs => by
    by_cases hc : c = d
    · exact Or.inr ⟨cs, by simp [wordLen, hc]⟩
    · rw [wordLen, if_neg hc, List.drop_succ_cons]
      exact drop_wordLen d cs

/-- The delimiter-free prefix is no longer than the list. -/
theorem wordLen_le (d : Nat) : ∀ l : List Nat, wordLen d l ≤ l.length
  | [] => Nat.le_refl _
  | c :: cs => by
    rw [wordLen]
    split
    · exact Nat.zero_le _
    · rw [List.length_cons]
      exact Nat.succ_le_succ (wordLen_le d cs)

/-- Without escape bytes (and with a non-escape previous byte), the
forward end-of-word scan returns the running index plus the length of
the delimiter-free prefix. -/
theorem find_eow_go_no_escape {d e : Nat} :
    ∀ (l : List Nat) (prev i : Nat), e ∉ l → prev ≠ e →
      find_eow_go d e prev i l = i + wordLen d l
  | [], _, _, _, _ => rfl
  | c :: cs, prev, i, hel, hprev => by
    have hce : c ≠ e := fun h => hel (h ▸ List.mem_cons_self c cs)
    by_cases hc : c = d
    · rw [find_eow_go, if_pos ⟨hc, hprev⟩, wordLen, if_pos hc]
      omega
    · rw [find_eow_go, if_neg (fun h => hc h.1), if_neg (fun h => hce h.1),
        wordLen, if_neg hc,
        find_eow_go_no_escape cs c (i + 1) (fun h => hel (List.mem_cons_of_mem _ h)) hce]
      omega

/-- Without escape bytes, on a view whose head is not the delimiter,
`find_eow` returns the length of the delimiter-free prefix. -/
theorem find_eow_no_escape {d e c : Nat} {cs : List Nat}
    (hc : c ≠ d) (hel : e ∉ c :: cs) :
    find_eow ⟨d, e, c :: cs⟩ = some (wordLen d (c :: cs)) := by
  have hce : c ≠ e := fun h => hel (h ▸ List.mem_cons_self c cs)
  have h1 : find_eow ⟨d, e, c :: cs⟩ = some (find_eow_go d e 0 0 (c :: cs)) := by
    simp [find_eow]
  rw [h1]
  congr 1
  rw [find_eow_go, if_neg (fun h => hc h.1), if_neg (fun h => hce h.1),
    find_eow_go_no_escape cs c 1 (fun h => hel (List.mem_cons_of_mem _ h)) hce,
    wordLen, if_neg hc]
  omega

/-- `splitAll` of a delimiter-free list is the single fragment. -/
theorem splitAll_no_delim {d : Nat} :
    ∀ {w : List Nat}, (∀ x ∈ w, x ≠ d) → splitAll d w = [w]
  | [], _ => rfl
  | c :: cs, h => by
    have hc : c ≠ d := h c (List.mem_cons_self c cs)
    rw [splitAll, if_neg hc,
      splitAll_no_delim (fun x hx => h x (List.mem_cons_of_mem _ hx))]

/-- `splitAll` after a delimiter-free fragment followed by a delimiter. -/
theorem splitAll_word_delim {d : Nat} :
    ∀ {w : List Nat}, (∀ x ∈ w, x ≠ d) → ∀ r, splitAll d (w ++ d :: r) = w :: splitAll d r
  | [], _, r => by
    rw [List.nil_append, splitAll, if_pos rfl]
  | c :: cs, h, r => by
    have hc : c ≠ d := h c (List.mem_cons_self c cs)
    rw [List.cons_append, splitAll, if_neg hc,
      splitAll_word_delim (fun x hx => h x (List.mem_cons_of_mem _ hx)) r]

theorem naiveSplit_nil (d : Nat) : naiveSplit d [] = [] := rfl

/-- A leading delimiter contributes only an empty fragment. -/
theorem naiveSplit_cons_delim (d : Nat) (l : List Nat) :
    naiveSplit d (d :: l) = naiveSplit d l := by
  rw [naiveSplit, splitAll, if_pos rfl, dropEmpties, if_pos rfl]
  rfl

/-- Dropping the leading delimiters does not change the naive split. -/
theorem naiveSplit_drop_lead (d : Nat) :
    ∀ l : List Nat, naiveSplit d (l.drop (find_bow_go d l)) = naiveSplit d l
  | [] => rfl
  | c :: cs => by
    by_cases hc : c = d
    · subst hc
      rw [find_bow_go, if_pos rfl, List.drop_succ_cons, naiveSplit_drop_lead c cs,
        naiveSplit_cons_delim]
    · rw [find_bow_go, if_neg hc, List.drop_zero]

/-- One step of the naive split on a view starting with a non-delimiter
byte: the delimiter-free prefix is the first word. -/
theorem naiveSplit_step {d c : Nat} {cs : List Nat} (hc : c ≠ d) :
    naiveSplit d (c :: cs) =
      (c :: cs).take (wordLen d (c :: cs)) ::
        naiveSplit d ((c :: cs).drop (wordLen d (c :: cs))) := by
  have hall : ∀ x ∈ (c :: cs).take (wordLen d (c :: cs)), x ≠ d :=
    ne_delim_of_mem_take_wordLen (c :: cs)
  have hwne : (c :: cs).take (wordLen d (c :: cs)) ≠ [] := by
    rw [wordLen, if_neg hc, List.take_succ_cons]
    simp
  have hsplit := List.take_append_drop (wordLen d (c :: cs)) (c :: cs)
  rcases drop_wordLen d (c :: cs) with hdrop | ⟨r, hdrop⟩
  · rw [hdrop] at hsplit ⊢
    rw [List.append_nil] at hsplit
    rw [naiveSplit_nil]
    conv_lhs => rw [← hsplit]
    rw [naiveSplit, splitAll_no_delim hall, dropEmpties, if_neg hwne]
    rfl
  · rw [hdrop] at hsplit ⊢
    conv_lhs => rw [← hsplit]
    rw [naiveSplit, splitAll_word_delim hall r, dropEmpties, if_neg hwne,
      naiveSplit_cons_delim]
    rfl

/-- Main induction for C6: with enough fuel, forward collection on an
escape-free buffer computes the naive split. -/
theorem collectFront_no_escape (d e : Nat) :
    ∀ (n : Nat) (l : List Nat), l.length ≤ n → e ∉ l →
      collectFront (n + 1) ⟨d, e, l⟩ = naiveSplit d l := by
  intro n
  induction n with
  | zero =>
    intro l hlen hel
    have : l = [] := List.length_eq_zero.mp (Nat.le_zero.mp hlen)
    subst this
    rfl
  | succ m ih =>
    intro l hlen hel
    rcases hl1 : l.drop (find_bow_go d l) with _ | ⟨c, cs⟩
    · have hfe : find_eow (setInner ⟨d, e, l⟩ (l.drop (find_bow ⟨d, e, l⟩))) = none := by
        rw [find_eow_eq_none_iff]
        exact hl1
      have hnext : next ⟨d, e, l⟩ =
          (none, setInner ⟨d, e, l⟩ (l.drop (find_bow ⟨d, e, l⟩))) := by
        rw [next]
        simp only [hfe]
      rw [collectFront, hnext]
      show ([] : List (List Nat)) = naiveSplit d l
      rw [← naiveSplit_drop_lead d l, hl1]
      rfl
    · have hc : c ≠ d := by
        have hhd := head_drop_find_bow_go d l
        rw [hl1] at hhd
        exact fun h => hhd (by simp [h])
      have hel1 : e ∉ (c :: cs) := by
        rw [← hl1]
        exact fun h => hel (List.mem_of_mem_drop h)
      have hfe : find_eow (⟨d, e, c :: cs⟩ : Iter) = some (wordLen d (c :: cs)) :=
        find_eow_no_escape hc hel1
      have hnext : next ⟨d, e, l⟩ =
          (some ((c :: cs).take (wordLen d (c :: cs))),
            ⟨d, e, (c :: cs).drop (wordLen d (c :: cs))⟩) := by
        rw [next]
        simp only [setInner, find_bow]
        rw [show l.drop (find_bow_go d (⟨d, e, l⟩ : Iter).inner) = c :: cs from hl1]
        rw [hfe]
      rw [collectFront, hnext]
      show ((c :: cs).take (wordLen d (c :: cs))) ::
          collectFront (m + 1) ⟨d, e, (c :: cs).drop (wordLen d (c :: cs))⟩ =
        naiveSplit d l
      have h1 : (c :: cs).length ≤ l.length := by
        rw [← hl1, List.length_drop]
        omega
      have hw1 : 1 ≤ wordLen d (c :: cs) := by
        rw [wordLen, if_neg hc]
        omega
      have hlen2 : ((c :: cs).drop (wordLen d (c :: cs))).length ≤ m := by
        rw [List.length_drop]
        rw [List.length_cons] at h1 ⊢
        omega
      rw [ih ((c :: cs).drop (wordLen d (c :: cs))) hlen2
        (fun h => hel1 (List.mem_of_mem_drop h))]
      rw [← naiveSplit_drop_lead d l, hl1]
      exact (naiveSplit_step hc).symm

/-- C6 (confirmed): for every buffer containing no occurrence of the
escape byte (delimiter distinct from escape), forward iteration yields
exactly the naive reference splitting that cuts at every delimiter byte
and discards the empty fragments. -/
theorem C6_thm (d e : Nat) (l : List Nat) (hel : e ∉ l) (_hde : d ≠ e) :
    allWordsFront ⟨d, e, l⟩ = naiveSplit d l :=
  collectFront_no_escape d e l.length l (Nat.le_refl _) hel

/-- Witness for C6 at the buffer `a b` (delimiter space, escape
backslash). -/
theorem C6_witness : allWordsFront ⟨32, 92, [97, 32, 98]⟩ = naiveSplit 32 [97, 32, 98] :=
  C6_thm 32 92 [97, 32, 98] (by decide) (by decide)

end EscapedDelim
